import Mathlib

/-!
Verification of the bit-range engine and accessor generators of the
rust-bitfield crate (src/src/lib.rs), via a shallow embedding into Lean.

Machine integers are modelled as their bit patterns: a value of an
unsigned or signed `k`-bit type is a `Nat` below `2 ^ k`; a signedness
flag records how the pattern is interpreted where the source behaves
differently for signed types (arithmetic right shift, sign-extending
casts).  Wrapping of shifted-out bits is made explicit with `% 2 ^ k`.
-/

namespace Bitfield

/-- Arithmetic shift right of an `R`-bit pattern `x` by `n`: the model of
Rust's `>>` on a signed `R`-bit integer (bits vacated at the top are
filled with the sign bit, bit `R-1`). -/
def ashr (R x n : Nat) : Nat :=
  if x.testBit (R - 1) then (x >>> n) ||| (2 ^ R - 2 ^ (R - n)) else x >>> n

/-- Sign extension of the low `w` bits of `x` to an `R`-bit pattern
(`w ≤ R`): bit `w-1` of `x` is replicated through bits `w..R-1`. -/
def sext (w R x : Nat) : Nat :=
  if x.testBit (w - 1) then x % 2 ^ w ||| (2 ^ R - 2 ^ w) else x % 2 ^ w

/-- Truncation of an `R`-bit pattern to its low `w` bits, re-extended to
`R` bits: two's-complement (sign-extending) for a signed result type,
unsigned (zero-extending) otherwise. -/
def truncExt (sgn : Bool) (w R v : Nat) : Nat :=
  if sgn then sext w R v else v % 2 ^ w

/-- Model of Rust's integer cast `value as uW` where `value` is an
`R`-bit pattern of signedness `sgn`: truncation when narrowing, zero- or
sign-extension (by `sgn`) when widening. -/
def castPat (R W : Nat) (sgn : Bool) (v : Nat) : Nat :=
  if sgn ∧ R ≤ W then sext R W v else v % 2 ^ W

/-- The final double shift of the getters (scalar and slice alike):
`value << (R - w) >> (R - w)` on the `R`-bit result type, where `w` is
the width of the extracted range.  The right shift is arithmetic for a
signed result type (`sgn = true`), logical otherwise. -/
def narrow (R : Nat) (sgn : Bool) (w x : Nat) : Nat :=
  if sgn then ashr R ((x <<< (R - w)) % 2 ^ R) (R - w)
  else ((x <<< (R - w)) % 2 ^ R) >>> (R - w)

/-- Embedding of `bit_range` from `impl_bitrange_for_u` (src/src/lib.rs
lines 928-939): storage type of width `W`, result type of width `R` and
signedness `sgn`.
`let result = ((*self << (bit_len - msb - 1)) >> (bit_len - msb - 1 + lsb)) as T;
 result << (result_bit_len - (msb - lsb + 1)) >> (result_bit_len - (msb - lsb + 1))` -/
def bit_range (W R : Nat) (sgn : Bool) (storage msb lsb : Nat) : Nat :=
  narrow R sgn (msb - lsb + 1)
    ((((storage <<< (W - msb - 1)) % 2 ^ W) >>> (W - msb - 1 + lsb)) % 2 ^ R)

/-- Embedding of the mask built by `set_bit_range` (src/src/lib.rs lines
947-950): `!(0) << (bit_len - msb - 1) >> (bit_len - msb - 1 + lsb) << lsb`
on the unsigned `W`-bit storage type (`!0` is `2^W - 1`). -/
def scalarMask (W msb lsb : Nat) : Nat :=
  (((((2 ^ W - 1) <<< (W - msb - 1)) % 2 ^ W) >>> (W - msb - 1 + lsb)) <<< lsb) % 2 ^ W

/-- Embedding of `set_bit_range` from `impl_bitrange_for_u` (src/src/lib.rs
lines 945-953): `*self &= !mask; *self |= (value as T << lsb) & mask;`. -/
def set_bit_range (W R : Nat) (sgn : Bool) (storage msb lsb value : Nat) : Nat :=
  let mask := scalarMask W msb lsb
  (storage &&& ((2 ^ W - 1) ^^^ mask)) ||| (((castPat R W sgn value <<< lsb) % 2 ^ W) &&& mask)

example : set_bit_range 32 32 false 0 31 28 0xF = 0xF0000000 := by decide
example : set_bit_range 32 32 false 0xF0000000 3 0 0xF = 0xF000000F := by decide
example : bit_range 32 32 false 0xF000000F 31 28 = 0xF := by decide
example : bit_range 32 32 false 0xF000000F 3 0 = 0xF := by decide
example : bit_range 8 8 true 0x80 7 4 = 0xF8 := by decide
example : bit_range 8 8 false 0x80 7 4 = 0x08 := by decide

/-- One step of `value >>= 1` on the `R`-bit value type of the slice
setters: logical shift for an unsigned value type, arithmetic for a
signed one. -/
def shr1 (R : Nat) (sgn : Bool) (v : Nat) : Nat :=
  if sgn then ashr R v 1 else v >>> 1

/-- A slice backing storage is a list of `E`-bit elements.  The source
indexes it with `self.0.as_ref()[i / bit_len]`; the getter with default
only differs from the source where the source would panic
(out-of-bounds), which the theorems exclude by hypothesis. -/
def elemAt (E : Nat) (s : List Nat) (i : Nat) : Nat :=
  s.getD (i / E) 0

/-- LSB0 slice getter, loop body bit read (src/src/lib.rs line 660):
`(self.0.as_ref()[i/bit_len] >> (i%bit_len)) & 1`. -/
def sliceBitLSB0 (E : Nat) (s : List Nat) (i : Nat) : Nat :=
  (elemAt E s i >>> (i % E)) &&& 1

/-- LSB0 slice getter accumulation loop (src/src/lib.rs lines 657-661):
`for i in (lsb..=msb).rev() { value <<= 1; value |= bit(i) }` on the
`R`-bit value type; the argument counts loop iterations, so depth `n`
has just processed index `msb - (n-1)`. -/
def sliceGetLoopLSB0 (E R : Nat) (s : List Nat) (msb : Nat) : Nat → Nat
  | 0 => 0
  | n + 1 => ((sliceGetLoopLSB0 E R s msb n <<< 1) % 2 ^ R) ||| sliceBitLSB0 E s (msb - n)

/-- Embedding of `bit_range` of `@impl_bitrange_slice` (src/src/lib.rs
lines 654-663): element width `E`, result width `R`, signedness `sgn`. -/
def bit_range_sliceLSB0 (E R : Nat) (sgn : Bool) (s : List Nat) (msb lsb : Nat) : Nat :=
  narrow R sgn (msb - lsb + 1) (sliceGetLoopLSB0 E R s msb (msb + 1 - lsb))

/-- One iteration of the LSB0 slice setter loop body (src/src/lib.rs
lines 672-673): clear bit `i % E` of element `i / E`, then OR in
`b << (i % E)` (`b` is `(value & 1) as E-bit`, so `b ≤ 1`); `!x` on the
`E`-bit element type is `x ^^^ (2^E - 1)`. -/
def setBitLSB0 (E : Nat) (s : List Nat) (i b : Nat) : List Nat :=
  s.set (i / E) ((elemAt E s i &&& ((2 ^ E - 1) ^^^ (1 <<< (i % E)))) ||| (b <<< (i % E)))

/-- LSB0 slice setter loop (src/src/lib.rs lines 671-675):
`for i in lsb..=msb { clear/set bit i; value >>= 1 }`, recursing on the
number of remaining iterations with the current index and value. -/
def sliceSetLoopLSB0 (E R : Nat) (sgn : Bool) : List Nat → Nat → Nat → Nat → List Nat
  | s, _, _, 0 => s
  | s, i, v, n + 1 =>
      sliceSetLoopLSB0 E R sgn (setBitLSB0 E s i (v &&& 1)) (i + 1) (shr1 R sgn v) n

/-- Embedding of `set_bit_range` of `@impl_bitrange_slice` (src/src/lib.rs
lines 668-676). -/
def set_bit_range_sliceLSB0 (E R : Nat) (sgn : Bool) (s : List Nat) (msb lsb v : Nat) :
    List Nat :=
  sliceSetLoopLSB0 E R sgn s lsb v (msb + 1 - lsb)

/-- MSB0 slice getter bit read (src/src/lib.rs line 688):
`(self.0.as_ref()[i/bit_len] >> (bit_len - i%bit_len - 1)) & 1`. -/
def sliceBitMSB0 (E : Nat) (s : List Nat) (i : Nat) : Nat :=
  (elemAt E s i >>> (E - i % E - 1)) &&& 1

/-- MSB0 slice getter accumulation loop (src/src/lib.rs lines 686-690):
`for i in lsb..=msb { value <<= 1; value |= bit(i) }`; depth `n` has
just processed index `lsb + (n-1)`. -/
def sliceGetLoopMSB0 (E R : Nat) (s : List Nat) (lsb : Nat) : Nat → Nat
  | 0 => 0
  | n + 1 => ((sliceGetLoopMSB0 E R s lsb n <<< 1) % 2 ^ R) ||| sliceBitMSB0 E s (lsb + n)

/-- Embedding of `bit_range` of `@impl_bitrange_slice_msb0`
(src/src/lib.rs lines 682-692). -/
def bit_range_sliceMSB0 (E R : Nat) (sgn : Bool) (s : List Nat) (msb lsb : Nat) : Nat :=
  narrow R sgn (msb - lsb + 1) (sliceGetLoopMSB0 E R s lsb (msb + 1 - lsb))

/-- One iteration of the MSB0 slice setter loop body (src/src/lib.rs
lines 700-702): the intra-element offset is mirrored to
`E - i % E - 1`. -/
def setBitMSB0 (E : Nat) (s : List Nat) (i b : Nat) : List Nat :=
  s.set (i / E)
    ((elemAt E s i &&& ((2 ^ E - 1) ^^^ (1 <<< (E - i % E - 1)))) ||| (b <<< (E - i % E - 1)))

/-- MSB0 slice setter loop (src/src/lib.rs lines 699-704):
`for i in (lsb..=msb).rev() { clear/set mirrored bit i; value >>= 1 }`,
so the index decreases from `msb`. -/
def sliceSetLoopMSB0 (E R : Nat) (sgn : Bool) : List Nat → Nat → Nat → Nat → List Nat
  | s, _, _, 0 => s
  | s, i, v, n + 1 =>
      sliceSetLoopMSB0 E R sgn (setBitMSB0 E s i (v &&& 1)) (i - 1) (shr1 R sgn v) n

/-- Embedding of `set_bit_range` of `@impl_bitrange_slice_msb0`
(src/src/lib.rs lines 696-705). -/
def set_bit_range_sliceMSB0 (E R : Nat) (sgn : Bool) (s : List Nat) (msb lsb v : Nat) :
    List Nat :=
  sliceSetLoopMSB0 E R sgn s msb v (msb + 1 - lsb)

example : set_bit_range_sliceLSB0 8 16 false [0, 0, 0] 19 4 0xFFFF = [0xF0, 0xFF, 0x0F] := by
  decide
example : bit_range_sliceLSB0 8 16 false [0xF0, 0xFF, 0x0F] 19 4 = 0xFFFF := by decide
example : set_bit_range_sliceLSB0 8 8 false [0, 0, 0] 0 0 1 = [0x01, 0, 0] := by decide
example : set_bit_range_sliceMSB0 8 8 false [0, 0, 0] 0 0 1 = [0x80, 0, 0] := by decide

/-- LSB0 reading of bit `g` of the whole slice: bit `g % E` (0 = least
significant) of element `g / E`. -/
def elemBit (E : Nat) (s : List Nat) (g : Nat) : Bool :=
  (elemAt E s g).testBit (g % E)

/-- MSB0 reading of bit `g` of the whole slice: bit `E - g % E - 1`
(0 = most significant) of element `g / E`. -/
def elemBitM (E : Nat) (s : List Nat) (g : Nat) : Bool :=
  (elemAt E s g).testBit (E - g % E - 1)

/-- Blanket impl `Bit for T: BitRange<u8>` (src/src/lib.rs lines
914-918): `fn bit(bit) { self.bit_range(bit, bit) != 0 }`, over an
arbitrary getter `g` standing for the implementing type's
`bit_range`. -/
def bitOf (g : Nat → Nat → Nat) (p : Nat) : Bool :=
  g p p != 0

/-- Blanket impl `BitMut for T: BitRangeMut<u8>` (src/src/lib.rs lines
920-924): `fn set_bit(bit, value) { self.set_bit_range(bit, bit, value as u8) }`,
over an arbitrary setter `st` (already applied to the receiver)
standing for the implementing type's `set_bit_range`; `value as u8`
maps `true` to 1 and `false` to 0. -/
def setBitOf {σ : Type} (st : Nat → Nat → Nat → σ) (p : Nat) (value : Bool) : σ :=
  st p p (if value then 1 else 0)

/-- Strided-field getter range arithmetic from the three-expression arm
of `bitfield_fields` (src/src/lib.rs lines 281-289):
`let width = msb - lsb + 1; let lsb = lsb + index*width;
 let msb = lsb + width - 1; self.bit_range(msb, lsb)`, over an
arbitrary `bit_range` implementation `g`. -/
def strided_get {α : Type} (g : Nat → Nat → α) (msb lsb index : Nat) : α :=
  let width := msb - lsb + 1
  let lsb2 := lsb + index * width
  let msb2 := lsb2 + width - 1
  g msb2 lsb2

/-- Strided-field setter range arithmetic from the three-expression arm
of `bitfield_fields` (src/src/lib.rs lines 251-258), over an arbitrary
`set_bit_range` implementation `st` already applied to the value. -/
def strided_set {σ : Type} (st : Nat → Nat → σ) (msb lsb index : Nat) : σ :=
  let width := msb - lsb + 1
  let lsb2 := lsb + index * width
  let msb2 := lsb2 + width - 1
  st msb2 lsb2

/-- Mask-constant accumulation loop `while i <= last { acc |= 1 << i; i += 1 }`
starting at `i = lsb`, by iteration count (src/src/lib.rs lines 222-227
and 237-242). -/
def maskAcc (lsb : Nat) : Nat → Nat
  | 0 => 0
  | n + 1 => maskAcc lsb n ||| (1 <<< (lsb + n))

/-- Mask constant of a single-bit field (src/src/lib.rs line 216):
`1 << bit`. -/
def mask_single (bit : Nat) : Nat :=
  1 <<< bit

/-- Mask constant of an `msb, lsb` range field (src/src/lib.rs lines
218-230): OR of `1 << i` for `i` from `lsb` while `i <= msb`. -/
def mask_range (msb lsb : Nat) : Nat :=
  maskAcc lsb (msb + 1 - lsb)

/-- Mask constant of a strided `msb, lsb, count` field as the source
computes it (src/src/lib.rs lines 231-245):
`let width = msb - lsb; let full_msb = msb + width * count;`
then OR of `1 << i` for `i` from `lsb` while `i <= full_msb`. -/
def mask_strided (msb lsb count : Nat) : Nat :=
  let width := msb - lsb
  let full_msb := msb + width * count
  maskAcc lsb (full_msb + 1 - lsb)

/-- Modelled from the spec: the mask a strided field is required to get,
namely the OR of `1 << i` over the union of the `count` ranges
`[lsb + k*width, msb + k*width]` for `k < count`, with the engine's
inclusive width `width = msb - lsb + 1`. -/
def mask_strided_spec (msb lsb count : Nat) : Nat :=
  (List.range count).foldl
    (fun acc k => acc ||| mask_range (msb + k * (msb - lsb + 1)) (lsb + k * (msb - lsb + 1))) 0

example : mask_range 10 0 = 0x7FF := by decide
example : mask_single 5 = 0x20 := by decide
example : mask_strided 0 0 2 = 0x1 := by decide
example : mask_strided_spec 0 0 2 = 0x3 := by decide
example : mask_strided 2 0 2 = 0x7F := by decide
example : mask_strided_spec 2 0 2 = 0x3F := by decide

/-- Guarded subtraction: Rust `usize` subtraction panics (in debug; and
in release the wrapped huge value makes the following shift panic) on
underflow, so the checked evaluators fail there. -/
def subChecked (a b : Nat) : Option Nat :=
  if b ≤ a then some (a - b) else none

/-- Guarded left shift on a `width`-bit type: Rust panics when the shift
amount reaches the type's bit width. -/
def shlChecked (width x n : Nat) : Option Nat :=
  if n < width then some ((x <<< n) % 2 ^ width) else none

/-- Guarded logical right shift on a `width`-bit unsigned type. -/
def shrCheckedU (width x n : Nat) : Option Nat :=
  if n < width then some (x >>> n) else none

/-- Guarded arithmetic right shift on a `width`-bit signed type. -/
def shrCheckedS (width x n : Nat) : Option Nat :=
  if n < width then some (ashr width x n) else none

/-- Scalar `bit_range` with every shift and subtraction guarded exactly
where the source could panic (shift amount at least the type width,
`usize` underflow): evaluates to `some` exactly when no panic occurs. -/
def bit_range_checked (W R : Nat) (sgn : Bool) (storage msb lsb : Nat) : Option Nat := do
  let a ← subChecked W (msb + 1)
  let x ← shlChecked W storage a
  let y ← shrCheckedU W x (a + lsb)
  let d ← subChecked msb lsb
  let sh ← subChecked R (d + 1)
  let z ← shlChecked R (y % 2 ^ R) sh
  if sgn then shrCheckedS R z sh else shrCheckedU R z sh

/-- Scalar `set_bit_range` with every shift and subtraction guarded
exactly where the source could panic. -/
def set_bit_range_checked (W R : Nat) (sgn : Bool) (storage msb lsb value : Nat) :
    Option Nat := do
  let a ← subChecked W (msb + 1)
  let m1 ← shlChecked W (2 ^ W - 1) a
  let m2 ← shrCheckedU W m1 (a + lsb)
  let mask ← shlChecked W m2 lsb
  let sv ← shlChecked W (castPat R W sgn value) lsb
  some ((storage &&& ((2 ^ W - 1) ^^^ mask)) ||| (sv &&& mask))

example : bit_range_checked 8 8 false 0xAB 3 1 = some (bit_range 8 8 false 0xAB 3 1) := by
  decide
example : bit_range_checked 8 8 false 0xAB 9 1 = none := by decide
example : set_bit_range_checked 8 8 false 0xAB 3 1 2 =
    some (set_bit_range 8 8 false 0xAB 3 1 2) := by decide

theorem getD_set (l : List Nat) (i j a : Nat) :
    (l.set i a).getD j 0 = if i = j ∧ i < l.length then a else l.getD j 0 := by
  simp only [List.getD, List.get?_eq_getElem?, List.getElem?_set]
  by_cases h : i = j
  · subst h
    by_cases h2 : i < l.length
    · simp [h2]
    · simp [h2, List.getElem?_eq_none (l := l) (by omega : l.length ≤ i)]
  · have hh : ¬(i = j ∧ i < l.length) := by tauto
    simp [h, hh]

theorem two_pow_sub_two_pow_testBit {a b : Nat} (h : b ≤ a) (j : Nat) :
    ((2 : Nat) ^ a - 2 ^ b).testBit j = decide (b ≤ j ∧ j < a) := by
  have h2 : (2 : Nat) ^ a - 2 ^ b = (2 ^ (a - b) - 1) <<< b := by
    rw [Nat.shiftLeft_eq, Nat.sub_mul, one_mul, ← pow_add]
    congr 2
    omega
  rw [h2, Nat.testBit_shiftLeft, Nat.testBit_two_pow_sub_one, ← Bool.decide_and,
    decide_eq_decide]
  omega

theorem testBit_of_lt_of_le {x n i : Nat} (hx : x < 2 ^ n) (h : n ≤ i) :
    x.testBit i = false :=
  Nat.testBit_lt_two_pow (Nat.lt_of_lt_of_le hx (Nat.pow_le_pow_right (by omega) h))

theorem ashr_testBit {R v n : Nat} (hv : v < 2 ^ R) (hn : n ≤ R) (j : Nat) :
    (ashr R v n).testBit j =
      if j < R - n then v.testBit (n + j) else (decide (j < R) && v.testBit (R - 1)) := by
  unfold ashr
  by_cases hs : v.testBit (R - 1)
  · simp only [hs, if_true, Nat.testBit_lor, Nat.testBit_shiftRight,
      two_pow_sub_two_pow_testBit (Nat.sub_le R n), Bool.and_true]
    by_cases hj : j < R - n
    · have h1 : ¬(R - n ≤ j ∧ j < R) := by omega
      simp [hj, h1]
      intro h2 h3
      omega
    · have h1 : v.testBit (n + j) = false := testBit_of_lt_of_le hv (by omega)
      have h2 : (R - n ≤ j ∧ j < R) ↔ (j < R) := by omega
      simp [hj, h1, h2]
      omega
  · simp only [hs, Bool.and_false, Nat.testBit_shiftRight, if_false]
    by_cases hj : j < R - n
    · simp [hj]
    · have h1 : v.testBit (n + j) = false := testBit_of_lt_of_le hv (by omega)
      simp [hj, h1]

theorem sext_testBit {w R x : Nat} (hw : 1 ≤ w) (hwR : w ≤ R) (j : Nat) :
    (sext w R x).testBit j =
      if j < w then x.testBit j
      else (decide (j < R) && x.testBit (w - 1)) := by
  unfold sext
  by_cases hs : x.testBit (w - 1)
  · simp only [hs, if_true, Nat.testBit_lor, Nat.testBit_mod_two_pow,
      two_pow_sub_two_pow_testBit hwR, Bool.and_true]
    by_cases hj : j < w
    · have h1 : ¬(w ≤ j ∧ j < R) := by omega
      simp [hj, h1]
    · have h1 : (w ≤ j ∧ j < R) ↔ (j < R) := by omega
      simp [hj, h1]
  · simp only [hs, if_false, Nat.testBit_mod_two_pow, Bool.and_false]
    by_cases hj : j < w <;> simp [hj]

theorem sext_lt {w R x : Nat} (hwR : w ≤ R) : sext w R x < 2 ^ R := by
  unfold sext
  have h1 : x % 2 ^ w < 2 ^ R :=
    Nat.lt_of_lt_of_le (Nat.mod_lt _ (Nat.pos_pow_of_pos w (by omega)))
      (Nat.pow_le_pow_right (by omega) hwR)
  by_cases hs : x.testBit (w - 1)
  · have h2 : (2 : Nat) ^ R - 2 ^ w < 2 ^ R := by
      have hw2 : 0 < (2 : Nat) ^ w := Nat.pos_pow_of_pos w (by omega)
      have hR2 : 0 < (2 : Nat) ^ R := Nat.pos_pow_of_pos R (by omega)
      omega
    simpa [hs] using Nat.or_lt_two_pow h1 h2
  · simpa [hs] using h1

theorem truncExt_lt {sgn : Bool} {w R v : Nat} (hwR : w ≤ R) :
    truncExt sgn w R v < 2 ^ R := by
  unfold truncExt
  rcases sgn with _ | _
  · simpa using Nat.lt_of_lt_of_le (Nat.mod_lt _ (Nat.pos_pow_of_pos w (by omega)))
      (Nat.pow_le_pow_right (by omega) hwR)
  · simpa using sext_lt hwR

theorem truncExt_mod (sgn : Bool) {w : Nat} (R v : Nat) (hw : 1 ≤ w) :
    truncExt sgn w R (v % 2 ^ w) = truncExt sgn w R v := by
  unfold truncExt sext
  have h1 : (v % 2 ^ w).testBit (w - 1) = v.testBit (w - 1) := by
    rw [Nat.testBit_mod_two_pow]
    simp [show w - 1 < w by omega]
  rw [Nat.mod_mod_of_dvd _ dvd_rfl, h1]

theorem narrow_eq {R w x : Nat} (sgn : Bool) (hx : x < 2 ^ w) (hw : 1 ≤ w) (hwR : w ≤ R) :
    narrow R sgn w x = truncExt sgn w R x := by
  have hshl : x <<< (R - w) < 2 ^ R := by
    rw [Nat.shiftLeft_eq]
    calc x * 2 ^ (R - w) < 2 ^ w * 2 ^ (R - w) :=
          Nat.mul_lt_mul_of_lt_of_le hx (Nat.le_refl _) (Nat.two_pow_pos _)
      _ = 2 ^ R := by rw [← pow_add]; congr 1; omega
  have hmod : (x <<< (R - w)) % 2 ^ R = x <<< (R - w) := Nat.mod_eq_of_lt hshl
  cases sgn with
  | false =>
      simp only [narrow, truncExt, hmod, Bool.false_eq_true, if_false,
        Nat.shiftLeft_shiftRight]
      exact (Nat.mod_eq_of_lt hx).symm
  | true =>
      simp only [narrow, truncExt, hmod, if_true]
      apply Nat.eq_of_testBit_eq
      intro j
      rw [ashr_testBit hshl (by omega) j, sext_testBit hw hwR j]
      have e0 : R - (R - w) = w := by omega
      rw [e0]
      by_cases hj : j < w
      · have e1 : R - w + j - (R - w) = j := by omega
        simp [hj, Nat.testBit_shiftLeft, e1]
      · have e2 : R - 1 - (R - w) = w - 1 := by omega
        have e3 : R - 1 ≥ R - w := by omega
        simp [hj, Nat.testBit_shiftLeft, e2, e3]

theorem castPat_testBit {R W j : Nat} (sgn : Bool) (v : Nat) (hjW : j < W) (hjR : j < R) :
    (castPat R W sgn v).testBit j = v.testBit j := by
  unfold castPat
  by_cases hc : sgn = true ∧ R ≤ W
  · rw [if_pos hc, sext_testBit (by omega) hc.2 j, if_pos hjR]
  · rw [if_neg hc, Nat.testBit_mod_two_pow]
    simp [hjW]

theorem scalarMask_testBit {W msb lsb : Nat} (h1 : lsb ≤ msb) (h2 : msb < W) (k : Nat) :
    (scalarMask W msb lsb).testBit k = decide (lsb ≤ k ∧ k ≤ msb) := by
  unfold scalarMask
  by_cases hk : lsb ≤ k
  · have e1 : W - msb - 1 + lsb + (k - lsb) = W - msb - 1 + k := by omega
    simp only [Nat.testBit_mod_two_pow, Nat.testBit_shiftLeft, Nat.testBit_shiftRight,
      Nat.testBit_two_pow_sub_one, e1, ge_iff_le, ← Bool.decide_and, decide_eq_decide]
    omega
  · simp only [Nat.testBit_mod_two_pow, Nat.testBit_shiftLeft, Nat.testBit_shiftRight,
      Nat.testBit_two_pow_sub_one, ge_iff_le, ← Bool.decide_and, decide_eq_decide]
    omega

theorem scalar_raw_eq {W R storage msb lsb : Nat} (hst : storage < 2 ^ W)
    (h1 : lsb ≤ msb) (h2 : msb < W) (hwR : msb - lsb + 1 ≤ R) :
    (((storage <<< (W - msb - 1)) % 2 ^ W) >>> (W - msb - 1 + lsb)) % 2 ^ R =
      (storage >>> lsb) % 2 ^ (msb - lsb + 1) := by
  apply Nat.eq_of_testBit_eq
  intro j
  simp only [Nat.testBit_mod_two_pow, Nat.testBit_shiftRight, Nat.testBit_shiftLeft]
  by_cases hj : j < msb - lsb + 1
  · have e1 : W - msb - 1 + lsb + j - (W - msb - 1) = lsb + j := by omega
    have c1 : W - msb - 1 + lsb + j < W := by omega
    have c2 : W - msb - 1 + lsb + j ≥ W - msb - 1 := by omega
    simp [e1, c1, c2, hj]
    omega
  · have c1 : ¬(W - msb - 1 + lsb + j < W) := by omega
    simp [c1, hj]

theorem bit_range_eq {W R storage msb lsb : Nat} (sgn : Bool) (hst : storage < 2 ^ W)
    (h1 : lsb ≤ msb) (h2 : msb < W) (hwR : msb - lsb + 1 ≤ R) :
    bit_range W R sgn storage msb lsb =
      truncExt sgn (msb - lsb + 1) R ((storage >>> lsb) % 2 ^ (msb - lsb + 1)) := by
  unfold bit_range
  rw [scalar_raw_eq hst h1 h2 hwR]
  exact narrow_eq sgn (Nat.mod_lt _ (Nat.two_pow_pos _)) (by omega) hwR

theorem set_bit_range_testBit {W R storage msb lsb v : Nat} (sgn : Bool)
    (hst : storage < 2 ^ W) (h1 : lsb ≤ msb) (h2 : msb < W) (k : Nat) :
    (set_bit_range W R sgn storage msb lsb v).testBit k =
      if lsb ≤ k ∧ k ≤ msb then (castPat R W sgn v).testBit (k - lsb)
      else storage.testBit k := by
  unfold set_bit_range
  simp only [Nat.testBit_lor, Nat.testBit_land, Nat.testBit_xor, Nat.testBit_mod_two_pow,
    Nat.testBit_shiftLeft, Nat.testBit_two_pow_sub_one, scalarMask_testBit h1 h2]
  by_cases hk : lsb ≤ k ∧ k ≤ msb
  · have hkW : k < W := by omega
    simp [hk, hkW, ge_iff_le]
  · by_cases hkW : k < W
    · simp [hk, hkW]
    · have h3 : storage.testBit k = false := testBit_of_lt_of_le hst (by omega)
      simp [hk, hkW, h3]

theorem set_bit_range_lt {W R storage msb lsb v : Nat} (sgn : Bool)
    (hst : storage < 2 ^ W) :
    set_bit_range W R sgn storage msb lsb v < 2 ^ W := by
  unfold set_bit_range
  apply Nat.or_lt_two_pow
  · exact Nat.lt_of_le_of_lt Nat.and_le_left hst
  · exact Nat.lt_of_le_of_lt Nat.and_le_left (Nat.mod_lt _ (Nat.two_pow_pos _))

theorem testBit_one (m : Nat) : (1 : Nat).testBit m = decide (m = 0) := by
  cases m with
  | zero => simp [Nat.testBit_zero]
  | succ m => simp [Nat.testBit_succ, Nat.zero_testBit]

theorem bitVal_eq (x off : Nat) : (x >>> off) &&& 1 = if x.testBit off then 1 else 0 := by
  rw [Nat.and_one_is_mod, Nat.testBit_to_div_mod, Nat.shiftRight_eq_div_pow]
  rcases Nat.mod_two_eq_zero_or_one (x / 2 ^ off) with h | h <;> simp [h]

theorem testBit_and_one (v m : Nat) : (v &&& 1).testBit m = (decide (m = 0) && v.testBit 0) := by
  rw [Nat.testBit_land, testBit_one]
  cases m with
  | zero => simp [Nat.testBit_zero]
  | succ m => simp

theorem shr1_testBit {R k : Nat} (sgn : Bool) (v : Nat) (h : k + 1 < R) :
    (shr1 R sgn v).testBit k = v.testBit (k + 1) := by
  have e1 : 1 + k = k + 1 := by omega
  cases sgn with
  | false =>
      simp only [shr1, Bool.false_eq_true, if_false, Nat.testBit_shiftRight, e1]
  | true =>
      simp only [shr1, if_true, ashr]
      by_cases hs : v.testBit (R - 1)
      · rw [if_pos hs, Nat.testBit_lor, Nat.testBit_shiftRight, e1,
          two_pow_sub_two_pow_testBit (by omega), decide_eq_false (by omega), Bool.or_false]
      · rw [if_neg hs, Nat.testBit_shiftRight, e1]

theorem sliceSetLoopLSB0_length (E R : Nat) (sgn : Bool) :
    ∀ (n : Nat) (s : List Nat) (i v : Nat),
      (sliceSetLoopLSB0 E R sgn s i v n).length = s.length
  | 0, _, _, _ => rfl
  | n + 1, s, i, v => by
      rw [sliceSetLoopLSB0, sliceSetLoopLSB0_length E R sgn n]
      simp [setBitLSB0]

theorem sliceSetLoopMSB0_length (E R : Nat) (sgn : Bool) :
    ∀ (n : Nat) (s : List Nat) (i v : Nat),
      (sliceSetLoopMSB0 E R sgn s i v n).length = s.length
  | 0, _, _, _ => rfl
  | n + 1, s, i, v => by
      rw [sliceSetLoopMSB0, sliceSetLoopMSB0_length E R sgn n]
      simp [setBitMSB0]

theorem setBitLSB0_elemBit {E : Nat} (hE : 1 ≤ E) {s : List Nat} {i : Nat}
    (hi : i / E < s.length) {b : Nat} (hb : b ≤ 1) (g : Nat) :
    elemBit E (setBitLSB0 E s i b) g = if g = i then b.testBit 0 else elemBit E s g := by
  unfold elemBit elemAt setBitLSB0
  rw [getD_set]
  by_cases he : i / E = g / E
  · rw [if_pos ⟨he, hi⟩]
    have hgE : g % E < E := Nat.mod_lt _ (by omega)
    by_cases hoff : g % E = i % E
    · have hgi : g = i := by
        have h3 : E * (i / E) + g % E = g := by rw [he]; exact Nat.div_add_mod g E
        have h4 := Nat.div_add_mod i E
        omega
      subst hgi
      rw [Nat.testBit_lor, Nat.testBit_land, Nat.testBit_xor, Nat.testBit_two_pow_sub_one,
        Nat.testBit_shiftLeft, Nat.testBit_shiftLeft, testBit_one]
      simp [hoff, hgE]
    · have hgi : g ≠ i := fun h => hoff (by rw [h])
      have h5 : (b <<< (i % E)).testBit (g % E) = false := by
        rw [Nat.testBit_shiftLeft]
        by_cases h6 : g % E ≥ i % E
        · have h7 : b.testBit (g % E - i % E) = false :=
            testBit_of_lt_of_le (by omega : b < 2 ^ 1) (by omega)
          simp [h6, h7]
        · simp [h6]
      rw [Nat.testBit_lor, h5, Bool.or_false, Nat.testBit_land, Nat.testBit_xor,
        Nat.testBit_two_pow_sub_one, Nat.testBit_shiftLeft, testBit_one, if_neg hgi]
      have h9 : (decide (g % E ≥ i % E) && decide (g % E - i % E = 0)) = false := by
        rw [← Bool.decide_and, decide_eq_false (by omega)]
      simp [hgE, h9, elemAt, he]
  · have hgi : g ≠ i := fun h => he (by rw [h])
    have h3 : ¬(i / E = g / E ∧ i / E < s.length) := fun h => he h.1
    rw [if_neg h3, if_neg hgi]

theorem setBitMSB0_elemBitM {E : Nat} (hE : 1 ≤ E) {s : List Nat} {i : Nat}
    (hi : i / E < s.length) {b : Nat} (hb : b ≤ 1) (g : Nat) :
    elemBitM E (setBitMSB0 E s i b) g = if g = i then b.testBit 0 else elemBitM E s g := by
  unfold elemBitM elemAt setBitMSB0
  rw [getD_set]
  by_cases he : i / E = g / E
  · rw [if_pos ⟨he, hi⟩]
    have hgE : g % E < E := Nat.mod_lt _ (by omega)
    have hiE : i % E < E := Nat.mod_lt _ (by omega)
    by_cases hoff : g % E = i % E
    · have hgi : g = i := by
        have h3 : E * (i / E) + g % E = g := by rw [he]; exact Nat.div_add_mod g E
        have h4 := Nat.div_add_mod i E
        omega
      subst hgi
      rw [Nat.testBit_lor, Nat.testBit_land, Nat.testBit_xor, Nat.testBit_two_pow_sub_one,
        Nat.testBit_shiftLeft, Nat.testBit_shiftLeft, testBit_one]
      simp [show E - g % E - 1 < E by omega]
    · have hgi : g ≠ i := fun h => hoff (by rw [h])
      have hmm : E - g % E - 1 ≠ E - i % E - 1 := by omega
      have h5 : (b <<< (E - i % E - 1)).testBit (E - g % E - 1) = false := by
        rw [Nat.testBit_shiftLeft]
        by_cases h6 : E - g % E - 1 ≥ E - i % E - 1
        · have h7 : b.testBit (E - g % E - 1 - (E - i % E - 1)) = false :=
            testBit_of_lt_of_le (by omega : b < 2 ^ 1) (by omega)
          simp [h6, h7]
        · simp [h6]
      rw [Nat.testBit_lor, h5, Bool.or_false, Nat.testBit_land, Nat.testBit_xor,
        Nat.testBit_two_pow_sub_one, Nat.testBit_shiftLeft, testBit_one, if_neg hgi]
      have h9 : (decide (E - g % E - 1 ≥ E - i % E - 1) &&
          decide (E - g % E - 1 - (E - i % E - 1) = 0)) = false := by
        rw [← Bool.decide_and, decide_eq_false (by omega)]
      simp [show E - g % E - 1 < E by omega, h9, elemAt, he]
      intro
      omega
  · have hgi : g ≠ i := fun h => he (by rw [h])
    have h3 : ¬(i / E = g / E ∧ i / E < s.length) := fun h => he h.1
    rw [if_neg h3, if_neg hgi]

theorem sliceBitLSB0_eq (E : Nat) (s : List Nat) (i : Nat) :
    sliceBitLSB0 E s i = if elemBit E s i then 1 else 0 := by
  unfold sliceBitLSB0 elemBit
  exact bitVal_eq _ _

theorem sliceBitMSB0_eq (E : Nat) (s : List Nat) (i : Nat) :
    sliceBitMSB0 E s i = if elemBitM E s i then 1 else 0 := by
  unfold sliceBitMSB0 elemBitM
  exact bitVal_eq _ _

theorem sliceGetLoopLSB0_testBit {E R : Nat} (s : List Nat) (msb : Nat) :
    ∀ n, n ≤ msb + 1 → n ≤ R → ∀ j,
      (sliceGetLoopLSB0 E R s msb n).testBit j =
        (decide (j < n) && elemBit E s (msb + 1 - n + j)) := by
  intro n
  induction n with
  | zero =>
      intro h1 h2 j
      simp [sliceGetLoopLSB0, Nat.zero_testBit]
  | succ n ih =>
      intro h1 h2 j
      rw [sliceGetLoopLSB0, Nat.testBit_lor, Nat.testBit_mod_two_pow, Nat.testBit_shiftLeft,
        sliceBitLSB0_eq]
      cases j with
      | zero =>
          have e1 : msb + 1 - (n + 1) + 0 = msb - n := by omega
          rw [e1]
          cases hel : elemBit E s (msb - n) <;> simp [hel, Nat.testBit_zero]
      | succ j' =>
          have e2 : msb + 1 - (n + 1) + (j' + 1) = msb + 1 - n + j' := by omega
          have h5 : (if elemBit E s (msb - n) then 1 else 0 : Nat).testBit (j' + 1) = false := by
            apply testBit_of_lt_of_le (n := 1) _ (by omega)
            split <;> omega
          rw [e2, h5, Bool.or_false, Nat.succ_sub_one, ih (by omega) (by omega) j']
          by_cases hj : j' < n
          · simp [hj, show j' + 1 < R by omega, show j' + 1 < n + 1 by omega]
          · simp [hj, show ¬(j' + 1 < n + 1) by omega]

theorem sliceGetLoopMSB0_testBit {E R : Nat} (s : List Nat) (lsb : Nat) :
    ∀ n, n ≤ R → ∀ j,
      (sliceGetLoopMSB0 E R s lsb n).testBit j =
        (decide (j < n) && elemBitM E s (lsb + n - 1 - j)) := by
  intro n
  induction n with
  | zero =>
      intro h2 j
      simp [sliceGetLoopMSB0, Nat.zero_testBit]
  | succ n ih =>
      intro h2 j
      rw [sliceGetLoopMSB0, Nat.testBit_lor, Nat.testBit_mod_two_pow, Nat.testBit_shiftLeft,
        sliceBitMSB0_eq]
      cases j with
      | zero =>
          have e1 : lsb + (n + 1) - 1 - 0 = lsb + n := by omega
          rw [e1]
          cases hel : elemBitM E s (lsb + n) <;> simp [hel, Nat.testBit_zero]
      | succ j' =>
          have h5 : (if elemBitM E s (lsb + n) then 1 else 0 : Nat).testBit (j' + 1) = false := by
            apply testBit_of_lt_of_le (n := 1) _ (by omega)
            split <;> omega
          rw [h5, Bool.or_false, Nat.succ_sub_one, ih (by omega) j']
          by_cases hj : j' < n
          · have e2 : lsb + (n + 1) - 1 - (j' + 1) = lsb + n - 1 - j' := by omega
            rw [e2]
            simp [hj, show j' + 1 < R by omega, show j' + 1 < n + 1 by omega]
          · simp [hj, show ¬(j' + 1 < n + 1) by omega]

theorem sliceSetLoopLSB0_outside {E R : Nat} (sgn : Bool) (hE : 1 ≤ E) :
    ∀ (n : Nat) (s : List Nat) (i v : Nat), i + n ≤ E * s.length →
      ∀ g, (g < i ∨ i + n ≤ g) →
        elemBit E (sliceSetLoopLSB0 E R sgn s i v n) g = elemBit E s g := by
  intro n
  induction n with
  | zero => intro s i v hlen g hg; rfl
  | succ n ih =>
      intro s i v hlen g hg
      rw [sliceSetLoopLSB0]
      have hidx : i / E < s.length := by
        rw [Nat.div_lt_iff_lt_mul (by omega)]
        have hc : s.length * E = E * s.length := Nat.mul_comm _ _
        omega
      have hlen2 : i + 1 + n ≤ E * (setBitLSB0 E s i (v &&& 1)).length := by
        unfold setBitLSB0
        rw [List.length_set]
        omega
      rw [ih (setBitLSB0 E s i (v &&& 1)) (i + 1) (shr1 R sgn v) hlen2 g (by omega)]
      rw [setBitLSB0_elemBit hE hidx (Nat.and_le_right) g, if_neg (by omega)]

theorem sliceSetLoopLSB0_inside {E R : Nat} (sgn : Bool) (hE : 1 ≤ E) :
    ∀ (n : Nat) (s : List Nat) (i v : Nat), i + n ≤ E * s.length → n ≤ R →
      ∀ k, k < n →
        elemBit E (sliceSetLoopLSB0 E R sgn s i v n) (i + k) = v.testBit k := by
  intro n
  induction n with
  | zero => intro s i v hlen hR k hk; omega
  | succ n ih =>
      intro s i v hlen hR k hk
      rw [sliceSetLoopLSB0]
      have hidx : i / E < s.length := by
        rw [Nat.div_lt_iff_lt_mul (by omega)]
        have hc : s.length * E = E * s.length := Nat.mul_comm _ _
        omega
      have hlen2 : i + 1 + n ≤ E * (setBitLSB0 E s i (v &&& 1)).length := by
        unfold setBitLSB0
        rw [List.length_set]
        omega
      cases k with
      | zero =>
          rw [sliceSetLoopLSB0_outside sgn hE n _ (i + 1) (shr1 R sgn v) hlen2 (i + 0)
            (by omega)]
          rw [setBitLSB0_elemBit hE hidx (Nat.and_le_right) (i + 0), if_pos (by omega),
            testBit_and_one]
          simp
      | succ k' =>
          have e1 : i + (k' + 1) = i + 1 + k' := by omega
          rw [e1, ih (setBitLSB0 E s i (v &&& 1)) (i + 1) (shr1 R sgn v) hlen2 (by omega) k'
            (by omega)]
          exact shr1_testBit sgn v (by omega)

theorem sliceSetLoopMSB0_outside {E R : Nat} (sgn : Bool) (hE : 1 ≤ E) :
    ∀ (n : Nat) (s : List Nat) (i v : Nat), i < E * s.length → n ≤ i + 1 →
      ∀ g, (g < i + 1 - n ∨ i < g) →
        elemBitM E (sliceSetLoopMSB0 E R sgn s i v n) g = elemBitM E s g := by
  intro n
  induction n with
  | zero => intro s i v hlen hn g hg; rfl
  | succ n ih =>
      intro s i v hlen hn g hg
      rw [sliceSetLoopMSB0]
      have hidx : i / E < s.length := by
        rw [Nat.div_lt_iff_lt_mul (by omega)]
        have hc : s.length * E = E * s.length := Nat.mul_comm _ _
        omega
      have hlen2 : i - 1 < E * (setBitMSB0 E s i (v &&& 1)).length := by
        unfold setBitMSB0
        rw [List.length_set]
        omega
      rw [ih (setBitMSB0 E s i (v &&& 1)) (i - 1) (shr1 R sgn v) hlen2 (by omega) g
        (by omega)]
      rw [setBitMSB0_elemBitM hE hidx (Nat.and_le_right) g, if_neg (by omega)]

theorem sliceSetLoopMSB0_inside {E R : Nat} (sgn : Bool) (hE : 1 ≤ E) :
    ∀ (n : Nat) (s : List Nat) (i v : Nat), i < E * s.length → n ≤ i + 1 → n ≤ R →
      ∀ k, k < n →
        elemBitM E (sliceSetLoopMSB0 E R sgn s i v n) (i - k) = v.testBit k := by
  intro n
  induction n with
  | zero => intro s i v hlen hn hR k hk; omega
  | succ n ih =>
      intro s i v hlen hn hR k hk
      rw [sliceSetLoopMSB0]
      have hidx : i / E < s.length := by
        rw [Nat.div_lt_iff_lt_mul (by omega)]
        have hc : s.length * E = E * s.length := Nat.mul_comm _ _
        omega
      have hlen2 : i - 1 < E * (setBitMSB0 E s i (v &&& 1)).length ∨ n = 0 := by
        unfold setBitMSB0
        rw [List.length_set]
        omega
      cases k with
      | zero =>
          rw [Nat.sub_zero]
          rcases Nat.eq_zero_or_pos n with hn0 | hn0
          · subst hn0
            rw [sliceSetLoopMSB0]
            rw [setBitMSB0_elemBitM hE hidx (Nat.and_le_right) i, if_pos rfl, testBit_and_one]
            simp
          · have hlen3 : i - 1 < E * (setBitMSB0 E s i (v &&& 1)).length := by
              unfold setBitMSB0
              rw [List.length_set]
              omega
            rw [sliceSetLoopMSB0_outside sgn hE n _ (i - 1) (shr1 R sgn v) hlen3 (by omega) i
              (by omega)]
            rw [setBitMSB0_elemBitM hE hidx (Nat.and_le_right) i, if_pos rfl, testBit_and_one]
            simp
      | succ k' =>
          have hn0 : 1 ≤ n := by omega
          have hlen3 : i - 1 < E * (setBitMSB0 E s i (v &&& 1)).length := by
            unfold setBitMSB0
            rw [List.length_set]
            omega
          have e1 : i - (k' + 1) = i - 1 - k' := by omega
          rw [e1, ih (setBitMSB0 E s i (v &&& 1)) (i - 1) (shr1 R sgn v) hlen3 (by omega)
            (by omega) k' (by omega)]
          exact shr1_testBit sgn v (by omega)

theorem sliceSetLoopLSB0_congr {E R : Nat} (sgn : Bool) :
    ∀ (n : Nat) (s : List Nat) (i v v2 : Nat), n ≤ R → v % 2 ^ n = v2 % 2 ^ n →
      sliceSetLoopLSB0 E R sgn s i v n = sliceSetLoopLSB0 E R sgn s i v2 n := by
  intro n
  induction n with
  | zero => intro s i v v2 h1 h2; rfl
  | succ n ih =>
      intro s i v v2 h1 h2
      have hdvd : (2 : Nat) ∣ 2 ^ (n + 1) := dvd_pow_self 2 (Nat.succ_ne_zero n)
      have hb2 : v % 2 = v2 % 2 := by
        rw [← Nat.mod_mod_of_dvd v hdvd, ← Nat.mod_mod_of_dvd v2 hdvd, h2]
      have hb : v &&& 1 = v2 &&& 1 := by rw [Nat.and_one_is_mod, Nat.and_one_is_mod, hb2]
      have hs : shr1 R sgn v % 2 ^ n = shr1 R sgn v2 % 2 ^ n := by
        apply Nat.eq_of_testBit_eq
        intro j
        rw [Nat.testBit_mod_two_pow, Nat.testBit_mod_two_pow]
        by_cases hj : j < n
        · rw [shr1_testBit sgn v (by omega), shr1_testBit sgn v2 (by omega)]
          have h3 : (v % 2 ^ (n + 1)).testBit (j + 1) = (v2 % 2 ^ (n + 1)).testBit (j + 1) := by
            rw [h2]
          rw [Nat.testBit_mod_two_pow, Nat.testBit_mod_two_pow] at h3
          have h4 : j + 1 < n + 1 := by omega
          simp [h4] at h3
          simp [hj, h3]
        · simp [hj]
      rw [sliceSetLoopLSB0, sliceSetLoopLSB0, hb, ih _ _ _ _ (by omega) hs]

theorem sliceSetLoopMSB0_congr {E R : Nat} (sgn : Bool) :
    ∀ (n : Nat) (s : List Nat) (i v v2 : Nat), n ≤ R → v % 2 ^ n = v2 % 2 ^ n →
      sliceSetLoopMSB0 E R sgn s i v n = sliceSetLoopMSB0 E R sgn s i v2 n := by
  intro n
  induction n with
  | zero => intro s i v v2 h1 h2; rfl
  | succ n ih =>
      intro s i v v2 h1 h2
      have hdvd : (2 : Nat) ∣ 2 ^ (n + 1) := dvd_pow_self 2 (Nat.succ_ne_zero n)
      have hb2 : v % 2 = v2 % 2 := by
        rw [← Nat.mod_mod_of_dvd v hdvd, ← Nat.mod_mod_of_dvd v2 hdvd, h2]
      have hb : v &&& 1 = v2 &&& 1 := by rw [Nat.and_one_is_mod, Nat.and_one_is_mod, hb2]
      have hs : shr1 R sgn v % 2 ^ n = shr1 R sgn v2 % 2 ^ n := by
        apply Nat.eq_of_testBit_eq
        intro j
        rw [Nat.testBit_mod_two_pow, Nat.testBit_mod_two_pow]
        by_cases hj : j < n
        · rw [shr1_testBit sgn v (by omega), shr1_testBit sgn v2 (by omega)]
          have h3 : (v % 2 ^ (n + 1)).testBit (j + 1) = (v2 % 2 ^ (n + 1)).testBit (j + 1) := by
            rw [h2]
          rw [Nat.testBit_mod_two_pow, Nat.testBit_mod_two_pow] at h3
          have h4 : j + 1 < n + 1 := by omega
          simp [h4] at h3
          simp [hj, h3]
        · simp [hj]
      rw [sliceSetLoopMSB0, sliceSetLoopMSB0, hb, ih _ _ _ _ (by omega) hs]

theorem set_sliceLSB0_elemBit {E R : Nat} (sgn : Bool) {s : List Nat} {msb lsb : Nat}
    (v : Nat) (hE : 1 ≤ E) (h1 : lsb ≤ msb) (h2 : msb < E * s.length)
    (hwR : msb - lsb + 1 ≤ R) (g : Nat) :
    elemBit E (set_bit_range_sliceLSB0 E R sgn s msb lsb v) g =
      if lsb ≤ g ∧ g ≤ msb then v.testBit (g - lsb) else elemBit E s g := by
  unfold set_bit_range_sliceLSB0
  by_cases hg : lsb ≤ g ∧ g ≤ msb
  · rw [if_pos hg]
    have h3 := sliceSetLoopLSB0_inside (E := E) (R := R) sgn hE (msb + 1 - lsb) s lsb v
      (by omega) (by omega) (g - lsb) (by omega)
    calc elemBit E (sliceSetLoopLSB0 E R sgn s lsb v (msb + 1 - lsb)) g
        = elemBit E (sliceSetLoopLSB0 E R sgn s lsb v (msb + 1 - lsb)) (lsb + (g - lsb)) := by
          congr 1
          omega
      _ = v.testBit (g - lsb) := h3
  · rw [if_neg hg]
    exact sliceSetLoopLSB0_outside sgn hE (msb + 1 - lsb) s lsb v (by omega) g (by omega)

theorem set_sliceMSB0_elemBitM {E R : Nat} (sgn : Bool) {s : List Nat} {msb lsb : Nat}
    (v : Nat) (hE : 1 ≤ E) (h1 : lsb ≤ msb) (h2 : msb < E * s.length)
    (hwR : msb - lsb + 1 ≤ R) (g : Nat) :
    elemBitM E (set_bit_range_sliceMSB0 E R sgn s msb lsb v) g =
      if lsb ≤ g ∧ g ≤ msb then v.testBit (msb - g) else elemBitM E s g := by
  unfold set_bit_range_sliceMSB0
  by_cases hg : lsb ≤ g ∧ g ≤ msb
  · rw [if_pos hg]
    have h3 := sliceSetLoopMSB0_inside (E := E) (R := R) sgn hE (msb + 1 - lsb) s msb v
      h2 (by omega) (by omega) (msb - g) (by omega)
    calc elemBitM E (sliceSetLoopMSB0 E R sgn s msb v (msb + 1 - lsb)) g
        = elemBitM E (sliceSetLoopMSB0 E R sgn s msb v (msb + 1 - lsb)) (msb - (msb - g)) := by
          congr 1
          omega
      _ = v.testBit (msb - g) := h3
  · rw [if_neg hg]
    exact sliceSetLoopMSB0_outside sgn hE (msb + 1 - lsb) s msb v h2 (by omega) g (by omega)

theorem roundtrip_scalar {W R storage msb lsb v : Nat} (sgn : Bool) (hst : storage < 2 ^ W)
    (h1 : lsb ≤ msb) (h2 : msb < W) (hwR : msb - lsb + 1 ≤ R) :
    bit_range W R sgn (set_bit_range W R sgn storage msb lsb v) msb lsb =
      truncExt sgn (msb - lsb + 1) R v := by
  rw [bit_range_eq sgn (set_bit_range_lt sgn hst) h1 h2 hwR]
  have hx : (set_bit_range W R sgn storage msb lsb v >>> lsb) % 2 ^ (msb - lsb + 1) =
      v % 2 ^ (msb - lsb + 1) := by
    apply Nat.eq_of_testBit_eq
    intro j
    rw [Nat.testBit_mod_two_pow, Nat.testBit_mod_two_pow, Nat.testBit_shiftRight]
    by_cases hj : j < msb - lsb + 1
    · rw [set_bit_range_testBit sgn hst h1 h2 (lsb + j), if_pos (by omega)]
      have e2 : lsb + j - lsb = j := by omega
      rw [e2, castPat_testBit sgn v (by omega) (by omega)]
    · simp [hj]
  rw [hx, truncExt_mod sgn _ _ (by omega)]

theorem roundtrip_sliceLSB0 {E R : Nat} (sgn : Bool) {s : List Nat} {msb lsb v : Nat}
    (hE : 1 ≤ E) (h1 : lsb ≤ msb) (h2 : msb < E * s.length) (hwR : msb - lsb + 1 ≤ R) :
    bit_range_sliceLSB0 E R sgn (set_bit_range_sliceLSB0 E R sgn s msb lsb v) msb lsb =
      truncExt sgn (msb - lsb + 1) R v := by
  unfold bit_range_sliceLSB0
  have hx : sliceGetLoopLSB0 E R (set_bit_range_sliceLSB0 E R sgn s msb lsb v) msb
      (msb + 1 - lsb) = v % 2 ^ (msb - lsb + 1) := by
    apply Nat.eq_of_testBit_eq
    intro j
    rw [sliceGetLoopLSB0_testBit _ msb (msb + 1 - lsb) (by omega) (by omega) j,
      Nat.testBit_mod_two_pow]
    by_cases hj : j < msb + 1 - lsb
    · have e1 : msb + 1 - (msb + 1 - lsb) + j = lsb + j := by omega
      rw [e1, set_sliceLSB0_elemBit sgn v hE h1 h2 hwR (lsb + j), if_pos (by omega)]
      have e2 : lsb + j - lsb = j := by omega
      rw [e2]
      simp [hj, show j < msb - lsb + 1 by omega]
    · simp [hj, show ¬(j < msb - lsb + 1) by omega]
  rw [hx, narrow_eq sgn (Nat.mod_lt _ (Nat.two_pow_pos _)) (by omega) hwR,
    truncExt_mod sgn _ _ (by omega)]

theorem roundtrip_sliceMSB0 {E R : Nat} (sgn : Bool) {s : List Nat} {msb lsb v : Nat}
    (hE : 1 ≤ E) (h1 : lsb ≤ msb) (h2 : msb < E * s.length) (hwR : msb - lsb + 1 ≤ R) :
    bit_range_sliceMSB0 E R sgn (set_bit_range_sliceMSB0 E R sgn s msb lsb v) msb lsb =
      truncExt sgn (msb - lsb + 1) R v := by
  unfold bit_range_sliceMSB0
  have hx : sliceGetLoopMSB0 E R (set_bit_range_sliceMSB0 E R sgn s msb lsb v) lsb
      (msb + 1 - lsb) = v % 2 ^ (msb - lsb + 1) := by
    apply Nat.eq_of_testBit_eq
    intro j
    rw [sliceGetLoopMSB0_testBit _ lsb (msb + 1 - lsb) (by omega) j,
      Nat.testBit_mod_two_pow]
    by_cases hj : j < msb + 1 - lsb
    · have e1 : lsb + (msb + 1 - lsb) - 1 - j = msb - j := by omega
      rw [e1, set_sliceMSB0_elemBitM sgn v hE h1 h2 hwR (msb - j), if_pos (by omega)]
      have e2 : msb - (msb - j) = j := by omega
      rw [e2]
      simp [hj, show j < msb - lsb + 1 by omega]
    · simp [hj, show ¬(j < msb - lsb + 1) by omega]
  rw [hx, narrow_eq sgn (Nat.mod_lt _ (Nat.two_pow_pos _)) (by omega) hwR,
    truncExt_mod sgn _ _ (by omega)]

theorem maskAcc_testBit (lsb : Nat) :
    ∀ n k, (maskAcc lsb n).testBit k = decide (lsb ≤ k ∧ k < lsb + n) := by
  intro n
  induction n with
  | zero => intro k; simp [maskAcc, Nat.zero_testBit]
  | succ n ih =>
      intro k
      rw [maskAcc, Nat.testBit_lor, ih k, Nat.testBit_shiftLeft, testBit_one]
      rw [show (decide (k ≥ lsb + n) && decide (k - (lsb + n) = 0)) =
        decide (k = lsb + n) from by rw [← Bool.decide_and, decide_eq_decide]; omega]
      rw [← Bool.decide_or, decide_eq_decide]
      omega

theorem trunc_sliceLSB0 {E R : Nat} (sgn : Bool) (s : List Nat) {msb lsb : Nat} (v : Nat)
    (hv : v < 2 ^ R) (h1 : lsb ≤ msb) :
    set_bit_range_sliceLSB0 E R sgn s msb lsb v =
      set_bit_range_sliceLSB0 E R sgn s msb lsb (v % 2 ^ (msb - lsb + 1)) := by
  by_cases hR : R ≤ msb - lsb + 1
  · rw [Nat.mod_eq_of_lt (Nat.lt_of_lt_of_le hv (Nat.pow_le_pow_right (by omega) hR))]
  · have e : msb + 1 - lsb = msb - lsb + 1 := by omega
    exact sliceSetLoopLSB0_congr sgn (msb + 1 - lsb) s lsb v (v % 2 ^ (msb - lsb + 1))
      (by omega) (by rw [e]; exact (Nat.mod_mod_of_dvd v dvd_rfl).symm)

theorem trunc_sliceMSB0 {E R : Nat} (sgn : Bool) (s : List Nat) {msb lsb : Nat} (v : Nat)
    (hv : v < 2 ^ R) (h1 : lsb ≤ msb) :
    set_bit_range_sliceMSB0 E R sgn s msb lsb v =
      set_bit_range_sliceMSB0 E R sgn s msb lsb (v % 2 ^ (msb - lsb + 1)) := by
  by_cases hR : R ≤ msb - lsb + 1
  · rw [Nat.mod_eq_of_lt (Nat.lt_of_lt_of_le hv (Nat.pow_le_pow_right (by omega) hR))]
  · have e : msb + 1 - lsb = msb - lsb + 1 := by omega
    exact sliceSetLoopMSB0_congr sgn (msb + 1 - lsb) s msb v (v % 2 ^ (msb - lsb + 1))
      (by omega) (by rw [e]; exact (Nat.mod_mod_of_dvd v dvd_rfl).symm)

/-- C1: round-trip.  For every backing storage - an unsigned scalar of
width `W`, or a slice of `E`-bit elements in LSB0 or MSB0 convention -
every inclusive range `msb ≥ lsb` fitting the storage, result width `R`
holding at least `msb-lsb+1` bits, and every value `v` fixed by
truncation to `msb-lsb+1` bits (two's-complement for a signed result
type, unsigned otherwise), reading the range back after writing it
returns `v`. -/
theorem c1_roundtrip :
    (∀ (W R : Nat) (sgn : Bool) (storage msb lsb v : Nat),
        storage < 2 ^ W → v < 2 ^ R → lsb ≤ msb → msb < W → msb - lsb + 1 ≤ R →
        truncExt sgn (msb - lsb + 1) R v = v →
        bit_range W R sgn (set_bit_range W R sgn storage msb lsb v) msb lsb = v) ∧
    (∀ (E R : Nat) (sgn : Bool) (s : List Nat) (msb lsb v : Nat),
        1 ≤ E → v < 2 ^ R → lsb ≤ msb → msb < E * s.length → msb - lsb + 1 ≤ R →
        truncExt sgn (msb - lsb + 1) R v = v →
        bit_range_sliceLSB0 E R sgn (set_bit_range_sliceLSB0 E R sgn s msb lsb v) msb lsb
          = v) ∧
    (∀ (E R : Nat) (sgn : Bool) (s : List Nat) (msb lsb v : Nat),
        1 ≤ E → v < 2 ^ R → lsb ≤ msb → msb < E * s.length → msb - lsb + 1 ≤ R →
        truncExt sgn (msb - lsb + 1) R v = v →
        bit_range_sliceMSB0 E R sgn (set_bit_range_sliceMSB0 E R sgn s msb lsb v) msb lsb
          = v) := by
  refine ⟨?_, ?_, ?_⟩
  · intro W R sgn storage msb lsb v hst hv h1 h2 hwR hfix
    rw [roundtrip_scalar sgn hst h1 h2 hwR, hfix]
  · intro E R sgn s msb lsb v hE hv h1 h2 hwR hfix
    rw [roundtrip_sliceLSB0 sgn hE h1 h2 hwR, hfix]
  · intro E R sgn s msb lsb v hE hv h1 h2 hwR hfix
    rw [roundtrip_sliceMSB0 sgn hE h1 h2 hwR, hfix]

/-- Witness for C1 at concrete inputs: an 8-bit scalar, a 2-byte LSB0
slice, and a 2-byte MSB0 slice with a signed result type. -/
theorem c1_roundtrip_witness :
    bit_range 8 8 false (set_bit_range 8 8 false 0xA5 6 2 0x1B) 6 2 = 0x1B ∧
    bit_range_sliceLSB0 8 8 false
      (set_bit_range_sliceLSB0 8 8 false [0xFF, 0x00] 10 3 0x55) 10 3 = 0x55 ∧
    bit_range_sliceMSB0 8 8 true
      (set_bit_range_sliceMSB0 8 8 true [0x00, 0xFF] 10 3 0xAA) 10 3 = 0xAA :=
  ⟨c1_roundtrip.1 8 8 false 0xA5 6 2 0x1B (by decide) (by decide) (by decide) (by decide)
      (by decide) (by decide),
   c1_roundtrip.2.1 8 8 false [0xFF, 0x00] 10 3 0x55 (by decide) (by decide) (by decide)
      (by decide) (by decide) (by decide),
   c1_roundtrip.2.2 8 8 true [0x00, 0xFF] 10 3 0xAA (by decide) (by decide) (by decide)
      (by decide) (by decide) (by decide)⟩

/-- C2: non-interference (frame).  `set_bit_range` leaves every bit
position outside `[lsb, msb]` - for slices, every LSB0- resp.
MSB0-numbered bit of every element - exactly as it was, for any written
value `v`; the slice setters also preserve the element count. -/
theorem c2_frame :
    (∀ (W R : Nat) (sgn : Bool) (storage msb lsb v : Nat),
        storage < 2 ^ W → lsb ≤ msb → msb < W →
        ∀ k, (k < lsb ∨ msb < k) →
          (set_bit_range W R sgn storage msb lsb v).testBit k = storage.testBit k) ∧
    (∀ (E R : Nat) (sgn : Bool) (s : List Nat) (msb lsb v : Nat),
        1 ≤ E → lsb ≤ msb → msb < E * s.length →
        (set_bit_range_sliceLSB0 E R sgn s msb lsb v).length = s.length ∧
        ∀ g, (g < lsb ∨ msb < g) →
          elemBit E (set_bit_range_sliceLSB0 E R sgn s msb lsb v) g = elemBit E s g) ∧
    (∀ (E R : Nat) (sgn : Bool) (s : List Nat) (msb lsb v : Nat),
        1 ≤ E → lsb ≤ msb → msb < E * s.length →
        (set_bit_range_sliceMSB0 E R sgn s msb lsb v).length = s.length ∧
        ∀ g, (g < lsb ∨ msb < g) →
          elemBitM E (set_bit_range_sliceMSB0 E R sgn s msb lsb v) g = elemBitM E s g) := by
  refine ⟨?_, ?_, ?_⟩
  · intro W R sgn storage msb lsb v hst h1 h2 k hk
    rw [set_bit_range_testBit sgn hst h1 h2 k, if_neg (by omega)]
  · intro E R sgn s msb lsb v hE h1 h2
    exact ⟨sliceSetLoopLSB0_length E R sgn _ s lsb v,
      fun g hg => sliceSetLoopLSB0_outside sgn hE (msb + 1 - lsb) s lsb v (by omega) g
        (by omega)⟩
  · intro E R sgn s msb lsb v hE h1 h2
    exact ⟨sliceSetLoopMSB0_length E R sgn _ s msb v,
      fun g hg => sliceSetLoopMSB0_outside sgn hE (msb + 1 - lsb) s msb v h2 (by omega) g
        (by omega)⟩

/-- Witness for C2 at concrete inputs: bits outside the written range
keep their values, on a scalar and on both slice conventions. -/
theorem c2_frame_witness :
    (set_bit_range 8 8 false 0xFF 5 2 0 : Nat).testBit 1 = (0xFF : Nat).testBit 1 ∧
    elemBit 8 (set_bit_range_sliceLSB0 8 8 false [0xFF, 0xFF] 9 2 0) 11 =
      elemBit 8 [0xFF, 0xFF] 11 ∧
    elemBitM 8 (set_bit_range_sliceMSB0 8 8 false [0xFF, 0xFF] 9 2 0) 11 =
      elemBitM 8 [0xFF, 0xFF] 11 :=
  ⟨c2_frame.1 8 8 false 0xFF 5 2 0 (by decide) (by decide) (by decide) 1 (by decide),
   (c2_frame.2.1 8 8 false [0xFF, 0xFF] 9 2 0 (by decide) (by decide) (by decide)).2 11
     (by decide),
   (c2_frame.2.2 8 8 false [0xFF, 0xFF] 9 2 0 (by decide) (by decide) (by decide)).2 11
     (by decide)⟩

/-- Modelled from the spec: the closed-form scalar extraction
`(storage << (W-1-msb)) >> (W-1-msb+lsb)`, cast to the result type and
then shifted left and right by `R - (msb-lsb+1)`. -/
def bit_range_closed_form (W R : Nat) (sgn : Bool) (storage msb lsb : Nat) : Nat :=
  narrow R sgn (msb - lsb + 1)
    ((((storage <<< (W - 1 - msb)) % 2 ^ W) >>> (W - 1 - msb + lsb)) % 2 ^ R)

/-- C4: scalar extraction closed form with narrowing.  The source's
`bit_range` equals the spec's closed form, and its value is the
extracted field `(storage >> lsb) mod 2^(msb-lsb+1)` zero-extended to
the result width for an unsigned result type and sign-extended
(replicating bit `msb - lsb`) for a signed one. -/
theorem c4_closed_form :
    ∀ (W R : Nat) (sgn : Bool) (storage msb lsb : Nat),
      storage < 2 ^ W → lsb ≤ msb → msb < W → msb - lsb + 1 ≤ R →
      bit_range W R sgn storage msb lsb = bit_range_closed_form W R sgn storage msb lsb ∧
      bit_range W R sgn storage msb lsb =
        truncExt sgn (msb - lsb + 1) R ((storage >>> lsb) % 2 ^ (msb - lsb + 1)) := by
  intro W R sgn storage msb lsb hst h1 h2 hwR
  constructor
  · unfold bit_range bit_range_closed_form
    have e1 : W - msb - 1 = W - 1 - msb := by omega
    rw [e1]
  · exact bit_range_eq sgn hst h1 h2 hwR

/-- Witness for C4 at a concrete input: unsigned extraction of `[6,3]`
from a 16-bit storage into 8 bits, checked against both forms. -/
theorem c4_closed_form_witness :
    bit_range 16 8 false 0xBEEF 6 3 = bit_range_closed_form 16 8 false 0xBEEF 6 3 ∧
    bit_range 16 8 false 0xBEEF 6 3 = truncExt false 4 8 ((0xBEEF >>> 3) % 2 ^ 4) :=
  c4_closed_form 16 8 false 0xBEEF 6 3 (by decide) (by decide) (by decide) (by decide)

/-- C5: truncation policy.  Writing `v` into `[lsb, msb]` gives exactly
the same storage as writing `v` with all bits at positions at least
`msb-lsb+1` cleared: only the low `msb-lsb+1` bits of `v` are stored,
and (the functions being total) no error is raised for an oversized
`v`. -/
theorem c5_truncation :
    (∀ (W R : Nat) (sgn : Bool) (storage msb lsb v : Nat),
        storage < 2 ^ W → v < 2 ^ R → lsb ≤ msb → msb < W →
        set_bit_range W R sgn storage msb lsb v =
          set_bit_range W R sgn storage msb lsb (v % 2 ^ (msb - lsb + 1))) ∧
    (∀ (E R : Nat) (sgn : Bool) (s : List Nat) (msb lsb v : Nat),
        v < 2 ^ R → lsb ≤ msb →
        set_bit_range_sliceLSB0 E R sgn s msb lsb v =
          set_bit_range_sliceLSB0 E R sgn s msb lsb (v % 2 ^ (msb - lsb + 1))) ∧
    (∀ (E R : Nat) (sgn : Bool) (s : List Nat) (msb lsb v : Nat),
        v < 2 ^ R → lsb ≤ msb →
        set_bit_range_sliceMSB0 E R sgn s msb lsb v =
          set_bit_range_sliceMSB0 E R sgn s msb lsb (v % 2 ^ (msb - lsb + 1))) := by
  refine ⟨?_, ?_, ?_⟩
  · intro W R sgn storage msb lsb v hst hv h1 h2
    by_cases hR : R ≤ msb - lsb + 1
    · rw [Nat.mod_eq_of_lt (Nat.lt_of_lt_of_le hv (Nat.pow_le_pow_right (by omega) hR))]
    · apply Nat.eq_of_testBit_eq
      intro k
      rw [set_bit_range_testBit sgn hst h1 h2 k, set_bit_range_testBit sgn hst h1 h2 k]
      by_cases hk : lsb ≤ k ∧ k ≤ msb
      · rw [if_pos hk, if_pos hk, castPat_testBit sgn v (by omega) (by omega),
          castPat_testBit sgn _ (by omega) (by omega), Nat.testBit_mod_two_pow]
        simp [show k - lsb < msb - lsb + 1 by omega]
      · rw [if_neg hk, if_neg hk]
  · intro E R sgn s msb lsb v hv h1
    exact trunc_sliceLSB0 sgn s v hv h1
  · intro E R sgn s msb lsb v hv h1
    exact trunc_sliceMSB0 sgn s v hv h1

/-- Witness for C5 at concrete inputs: writing an oversized value equals
writing its low-width-bits truncation, on all three storage shapes. -/
theorem c5_truncation_witness :
    set_bit_range 8 8 false 0 5 2 0xFF = set_bit_range 8 8 false 0 5 2 (0xFF % 2 ^ 4) ∧
    set_bit_range_sliceLSB0 8 8 false [0, 0] 9 2 0xFF =
      set_bit_range_sliceLSB0 8 8 false [0, 0] 9 2 (0xFF % 2 ^ 8) ∧
    set_bit_range_sliceMSB0 8 8 true [0, 0] 6 2 0xFF =
      set_bit_range_sliceMSB0 8 8 true [0, 0] 6 2 (0xFF % 2 ^ 5) :=
  ⟨c5_truncation.1 8 8 false 0 5 2 0xFF (by decide) (by decide) (by decide) (by decide),
   c5_truncation.2.1 8 8 false [0, 0] 9 2 0xFF (by decide) (by decide),
   c5_truncation.2.2 8 8 true [0, 0] 6 2 0xFF (by decide) (by decide)⟩

/-- C3: code-bug evidence.  The strided-field mask arm computes
`width = msb - lsb` - off by one against the engine's inclusive
`msb - lsb + 1` used by the strided getter and setter - so the
generated constant covers the wrong bit set: for the two-element
single-bit field `(msb, lsb, count) = (0, 0, 2)` the source yields
`0x1` while the union of the field's ranges `[0,0]` and `[1,1]` is
`0x3`, and for `(2, 0, 2)` it yields `0x7F` (bits 0-6) while the union
of `[0,2]` and `[3,5]` is `0x3F`. -/
theorem c3_strided_mask_bug :
    mask_strided 0 0 2 = 0x1 ∧ mask_strided_spec 0 0 2 = 0x3 ∧
    mask_strided 2 0 2 = 0x7F ∧ mask_strided_spec 2 0 2 = 0x3F := by
  decide

/-- C6: strided accessor consistency.  For a `StridedRange(msb, lsb,
count)` field over any `BitRange` implementation, the getter at index
`k < count` reads exactly the range `[lsb + k*width, msb + k*width]`
with `width = msb - lsb + 1`, the setter writes exactly that range, and
the ranges of distinct indices are pairwise disjoint. -/
theorem c6_strided :
    ∀ (count : Nat) (α σ : Type) (g : Nat → Nat → α) (st : Nat → Nat → σ) (msb lsb k : Nat),
      lsb ≤ msb → k < count →
      strided_get g msb lsb k =
        g (msb + k * (msb - lsb + 1)) (lsb + k * (msb - lsb + 1)) ∧
      strided_set st msb lsb k =
        st (msb + k * (msb - lsb + 1)) (lsb + k * (msb - lsb + 1)) ∧
      (∀ k2, k2 < count → k ≠ k2 → ∀ i,
        ¬((lsb + k * (msb - lsb + 1) ≤ i ∧ i ≤ msb + k * (msb - lsb + 1)) ∧
          (lsb + k2 * (msb - lsb + 1) ≤ i ∧ i ≤ msb + k2 * (msb - lsb + 1)))) := by
  intro count α σ g st msb lsb k h1 hk
  refine ⟨?_, ?_, ?_⟩
  · simp only [strided_get]
    congr 1
    omega
  · simp only [strided_set]
    congr 1
    omega
  · intro k2 hk2 hne i hcontra
    obtain ⟨⟨h3, h4⟩, h5, h6⟩ := hcontra
    rcases Nat.lt_or_ge k k2 with hlt | hge
    · have h7 : (k + 1) * (msb - lsb + 1) ≤ k2 * (msb - lsb + 1) :=
        Nat.mul_le_mul_right _ (by omega)
      rw [Nat.add_one_mul] at h7
      omega
    · have hlt2 : k2 < k := by omega
      have h7 : (k2 + 1) * (msb - lsb + 1) ≤ k * (msb - lsb + 1) :=
        Nat.mul_le_mul_right _ (by omega)
      rw [Nat.add_one_mul] at h7
      omega

/-- Witness for C6 at concrete inputs: index 1 of a strided field
`(5, 3, 3)` over a concrete 16-bit scalar getter and setter. -/
theorem c6_strided_witness :
    strided_get (bit_range 16 8 false 0x1234) 5 3 1 =
      bit_range 16 8 false 0x1234 (5 + 1 * 3) (3 + 1 * 3) ∧
    strided_set (fun m l => set_bit_range 16 8 false 0x1234 m l 3) 5 3 1 =
      set_bit_range 16 8 false 0x1234 (5 + 1 * 3) (3 + 1 * 3) 3 :=
  ⟨(c6_strided 3 Nat Nat (bit_range 16 8 false 0x1234)
      (fun m l => set_bit_range 16 8 false 0x1234 m l 3) 5 3 1 (by decide) (by decide)).1,
   (c6_strided 3 Nat Nat (bit_range 16 8 false 0x1234)
      (fun m l => set_bit_range 16 8 false 0x1234 m l 3) 5 3 1 (by decide) (by decide)).2.1⟩

theorem getD_replicate_zero (N j : Nat) : (List.replicate N (0 : Nat)).getD j 0 = 0 := by
  induction N generalizing j with
  | zero => simp [List.getD]
  | succ N ih =>
      cases j with
      | zero => simp [List.replicate, List.getD]
      | succ j => simpa [List.replicate, List.getD] using ih j

/-- C7: MSB0/LSB0 bit placement.  On a slice of `N` zeroed bytes,
setting bit index `i < 8N` to 1 (writing 1 into the single-bit range
`[i, i]` through an 8-bit unsigned view, as the blanket `BitMut` impl
does) yields exactly the zero array with element `i/8` replaced by
`2^(i%8)` under LSB0 and by `2^(7 - i%8)` under MSB0; in particular on
a 3-byte array setting bit 0 yields `[0x01, 0, 0]` under LSB0 and
`[0x80, 0, 0]` under MSB0. -/
theorem c7_bit_order :
    (∀ (N i : Nat), i < 8 * N →
        set_bit_range_sliceLSB0 8 8 false (List.replicate N 0) i i 1 =
          (List.replicate N 0).set (i / 8) (2 ^ (i % 8))) ∧
    (∀ (N i : Nat), i < 8 * N →
        set_bit_range_sliceMSB0 8 8 false (List.replicate N 0) i i 1 =
          (List.replicate N 0).set (i / 8) (2 ^ (7 - i % 8))) ∧
    set_bit_range_sliceLSB0 8 8 false [0, 0, 0] 0 0 1 = [0x01, 0x00, 0x00] ∧
    set_bit_range_sliceMSB0 8 8 false [0, 0, 0] 0 0 1 = [0x80, 0x00, 0x00] := by
  refine ⟨?_, ?_, by decide, by decide⟩
  · intro N i hi
    unfold set_bit_range_sliceLSB0
    rw [show i + 1 - i = 1 by omega]
    simp only [sliceSetLoopLSB0, setBitLSB0, elemAt, getD_replicate_zero,
      show (1 : Nat) &&& 1 = 1 by decide, Nat.zero_and, Nat.zero_or]
    rw [Nat.shiftLeft_eq, one_mul]
  · intro N i hi
    unfold set_bit_range_sliceMSB0
    rw [show i + 1 - i = 1 by omega]
    simp only [sliceSetLoopMSB0, setBitMSB0, elemAt, getD_replicate_zero,
      show (1 : Nat) &&& 1 = 1 by decide, Nat.zero_and, Nat.zero_or]
    rw [Nat.shiftLeft_eq, one_mul, show 8 - i % 8 - 1 = 7 - i % 8 by omega]

/-- Witness for C7 at a concrete input: bit 11 of a 3-byte array under
both conventions. -/
theorem c7_bit_order_witness :
    set_bit_range_sliceLSB0 8 8 false (List.replicate 3 0) 11 11 1 =
      (List.replicate 3 0).set (11 / 8) (2 ^ (11 % 8)) ∧
    set_bit_range_sliceMSB0 8 8 false (List.replicate 3 0) 11 11 1 =
      (List.replicate 3 0).set (11 / 8) (2 ^ (7 - 11 % 8)) :=
  ⟨c7_bit_order.1 3 11 (by decide), c7_bit_order.2.1 3 11 (by decide)⟩

/-- C8: the single-bit operations are the range operations at
`msb = lsb = p`.  The blanket `Bit` impl returns true exactly when
`bit_range(p, p)` through the unsigned 8-bit view is nonzero, the
blanket `BitMut` impl writes `set_bit_range(p, p, value as u8)`, and on
a scalar storage these read and write exactly bit `p`. -/
theorem c8_single_bit :
    (∀ (g : Nat → Nat → Nat) (p : Nat), bitOf g p = true ↔ g p p ≠ 0) ∧
    (∀ (σ : Type) (st : Nat → Nat → Nat → σ) (p : Nat) (b : Bool),
        setBitOf st p b = st p p (if b then 1 else 0)) ∧
    (∀ (W storage p : Nat), storage < 2 ^ W → p < W →
        bitOf (bit_range W 8 false storage) p = storage.testBit p) ∧
    (∀ (W storage p : Nat) (b : Bool), storage < 2 ^ W → p < W → ∀ k,
        (setBitOf (set_bit_range W 8 false storage) p b).testBit k =
          if k = p then b else storage.testBit k) := by
  refine ⟨?_, fun σ st p b => rfl, ?_, ?_⟩
  · intro g p
    unfold bitOf
    simp
  · intro W storage p hst hp
    unfold bitOf
    rw [bit_range_eq false hst (Nat.le_refl p) hp (by omega)]
    have e1 : p - p + 1 = 1 := by omega
    rw [e1]
    simp only [truncExt, Bool.false_eq_true, if_false, pow_one,
      Nat.mod_mod_of_dvd _ dvd_rfl]
    rw [Nat.shiftRight_eq_div_pow, Nat.testBit_to_div_mod]
    rcases Nat.mod_two_eq_zero_or_one (storage / 2 ^ p) with h | h <;> simp [h]
  · intro W storage p b hst hp k
    unfold setBitOf
    rw [set_bit_range_testBit false hst (Nat.le_refl p) hp k]
    by_cases hk : k = p
    · subst hk
      rw [if_pos ⟨Nat.le_refl k, Nat.le_refl k⟩, if_pos rfl, Nat.sub_self]
      unfold castPat
      rw [if_neg (by simp)]
      cases b
      · simp [Nat.zero_testBit, Nat.zero_mod]
      · rw [if_pos rfl, Nat.mod_eq_of_lt (by
          calc (1 : Nat) < 2 ^ 1 := by decide
          _ ≤ 2 ^ W := Nat.pow_le_pow_right (by omega) (by omega)), testBit_one]
        simp
    · rw [if_neg (by omega), if_neg hk]

/-- Witness for C8 at concrete inputs: bit 3 of an 8-bit scalar. -/
theorem c8_single_bit_witness :
    (bitOf (bit_range 8 8 false 0x08) 3 = true ↔ bit_range 8 8 false 0x08 3 3 ≠ 0) ∧
    bitOf (bit_range 8 8 false 0x08) 3 = (0x08 : Nat).testBit 3 ∧
    (setBitOf (set_bit_range 8 8 false 0x00) 3 true).testBit 3 = true :=
  ⟨c8_single_bit.1 (bit_range 8 8 false 0x08) 3,
   c8_single_bit.2.2.1 8 0x08 3 (by decide) (by decide),
   by
    rw [c8_single_bit.2.2.2 8 0x00 3 true (by decide) (by decide) 3]
    decide⟩

/-- C9: mask derivation for non-strided fields.  The range-field mask
has exactly the bits `lsb ≤ i ≤ msb` set (it is the OR of `1 << i` over
that inclusive range), the single-bit mask is `1 << b`; concretely the
field `[10, 0]` yields `0x7FF` and the single bit 5 yields `0x20`. -/
theorem c9_mask :
    (∀ msb lsb k : Nat, lsb ≤ msb →
        (mask_range msb lsb).testBit k = decide (lsb ≤ k ∧ k ≤ msb)) ∧
    (∀ b k : Nat, (mask_single b).testBit k = decide (k = b)) ∧
    mask_range 10 0 = 0x7FF ∧
    mask_single 5 = 0x20 := by
  refine ⟨?_, ?_, by decide, by decide⟩
  · intro msb lsb k h1
    rw [mask_range, maskAcc_testBit, decide_eq_decide]
    omega
  · intro b k
    rw [mask_single, Nat.testBit_shiftLeft, testBit_one, ← Bool.decide_and,
      decide_eq_decide]
    omega

/-- Witness for C9 at concrete inputs: bits of the `[10, 0]` mask and
the single-bit mask at 5. -/
theorem c9_mask_witness :
    (mask_range 10 0).testBit 7 = decide ((0 : Nat) ≤ 7 ∧ (7 : Nat) ≤ 10) ∧
    (mask_single 5).testBit 5 = decide ((5 : Nat) = 5) :=
  ⟨c9_mask.1 10 0 7 (by decide), c9_mask.2.1 5 5⟩

/-- C10: totality of the scalar engine.  Under `lsb ≤ msb`, `msb < W`
and `msb - lsb + 1 ≤ R`, the checked evaluators - which fail exactly
where the source would panic (a shift amount reaching the shifted
type's bit width, or a usize subtraction underflow) - succeed and
return the unchecked values: every involved shift amount is strictly
below the width of the value it shifts. -/
theorem c10_totality :
    ∀ (W R : Nat) (sgn : Bool) (storage msb lsb v : Nat),
      lsb ≤ msb → msb < W → msb - lsb + 1 ≤ R →
      bit_range_checked W R sgn storage msb lsb =
        some (bit_range W R sgn storage msb lsb) ∧
      set_bit_range_checked W R sgn storage msb lsb v =
        some (set_bit_range W R sgn storage msb lsb v) := by
  intro W R sgn storage msb lsb v h1 h2 hwR
  have g1 : msb + 1 ≤ W := by omega
  have g2 : W - (msb + 1) < W := by omega
  have g2b : W - msb - 1 < W := by omega
  have g3 : W - (msb + 1) + lsb < W := by omega
  have g3b : W - msb - 1 + lsb < W := by omega
  have g5 : msb - lsb + 1 ≤ R := hwR
  have g6 : R - (msb - lsb + 1) < R := by omega
  have glsb : lsb < W := by omega
  have e1 : W - (msb + 1) = W - msb - 1 := by omega
  constructor
  · cases sgn with
    | false =>
        simp [bit_range_checked, subChecked, shlChecked, shrCheckedU, shrCheckedS,
          g1, g2, g2b, g3, g3b, h1, g5, g6, e1, bit_range, narrow]
    | true =>
        simp [bit_range_checked, subChecked, shlChecked, shrCheckedU, shrCheckedS,
          g1, g2, g2b, g3, g3b, h1, g5, g6, e1, bit_range, narrow]
  · simp [set_bit_range_checked, subChecked, shlChecked, shrCheckedU,
      g1, g2, g2b, g3, g3b, glsb, e1, set_bit_range, scalarMask]

/-- Witness for C10 at a concrete input: the checked 8-bit evaluators
succeed on range `[5, 2]`. -/
theorem c10_totality_witness :
    bit_range_checked 8 8 true 0xC3 5 2 = some (bit_range 8 8 true 0xC3 5 2) ∧
    set_bit_range_checked 8 8 true 0xC3 5 2 0x0F =
      some (set_bit_range 8 8 true 0xC3 5 2 0x0F) :=
  c10_totality 8 8 true 0xC3 5 2 0x0F (by decide) (by decide) (by decide)

end Bitfield
